import Mathlib

/-!
Shallow embedding of the data-preparation pipeline of `src/solution_4.ipynb`
(RSE Problem 4, an LSTM English→Spanish translator).  Raw text is modelled as
`List Char`; the Python / Keras string primitives the notebook calls are
modelled faithfully next to the notebook's own glue functions.
-/

namespace RSE

/-- Python `str.split(sep)` for a one-character separator, generalised to
splitting at every character satisfying `p` (for `line.split("\t")` take
`p c = (c = '\t')`): consecutive separators yield empty fields, and the
result list is never empty. -/
def pySplitP (p : Char → Bool) : List Char → List (List Char)
  | [] => [[]]
  | c :: cs =>
    match pySplitP p cs with
    | [] => [[]]
    | w :: ws => if p c then [] :: w :: ws else (c :: w) :: ws

/-- The ASCII whitespace characters recognised by Python `str.split()`. -/
def pyWhitespace (c : Char) : Bool :=
  c = ' ' || c = '\t' || c = '\n' || c = '\x0d' || c = '\x0b' || c = '\x0c'

/-- Python `str.split()` with no argument: split on whitespace, discarding
empty fields (hence whitespace runs act as one separator). -/
def pySplitWs (l : List Char) : List (List Char) :=
  (pySplitP pyWhitespace l).filter (fun w => w ≠ [])

/-- The notebook's `calculate_max_length(texts)`:
`max(len(text.split()) for text in texts)` (0 for an empty corpus; the
notebook would raise there, a case no claim exercises). -/
def calculateMaxLength (texts : List (List Char)) : Nat :=
  texts.foldl (fun m t => max m (pySplitWs t).length) 0

/-- The default filter characters of `keras.preprocessing.text.Tokenizer`. -/
def kerasFilters : List Char :=
  "!\"#$%&()*+,-./:;<=>?@[\\]^_\x60\x7b|\x7d~\t\n".toList

/-- `keras.preprocessing.text.text_to_word_sequence`: lowercase, replace
every filter character by the split character, split on the split character,
drop empty fields. -/
def textToWordSequence (text : List Char) : List (List Char) :=
  let lowered := text.map Char.toLower
  let translated := lowered.map (fun c => if kerasFilters.contains c then ' ' else c)
  (pySplitP (fun c => c = ' ') translated).filter (fun w => w ≠ [])

/-- One `self.word_counts[w] += 1` update of the tokenizer's
insertion-ordered word-count table. -/
def bumpCount (acc : List (List Char × Nat)) (w : List Char) : List (List Char × Nat) :=
  if acc.any (fun p => p.1 = w) then
    acc.map (fun p => if p.1 = w then (p.1, p.2 + 1) else p)
  else acc ++ [(w, 1)]

/-- The word-count table `Tokenizer.fit_on_texts` builds after tokenizing
every text. -/
def wordCounts (texts : List (List Char)) : List (List Char × Nat) :=
  ((texts.map textToWordSequence).flatten).foldl bumpCount []

/-- Insert an entry into a count-descending list, before the first entry
whose count is not larger (so an earlier entry stays in front of later
entries with the same count). -/
def insertByCount (x : List Char × Nat) : List (List Char × Nat) → List (List Char × Nat)
  | [] => [x]
  | y :: ys => if y.2 ≤ x.2 then x :: y :: ys else y :: insertByCount x ys

/-- `wcounts.sort(key=lambda x: x[1], reverse=True)`: stable sort of the
word-count table by descending count.  CPython's `list.sort` is stable, and
a stable sort's output is unique, so this structural insertion sort models
it exactly (ties keep first-seen order). -/
def sortWordCounts : List (List Char × Nat) → List (List Char × Nat)
  | [] => []
  | x :: xs => insertByCount x (sortWordCounts xs)

/-- `dict(zip(sorted_voc, range(start, ...)))`: consecutive integer ids
starting at `start`. -/
def assignIds (voc : List (List Char)) (start : Nat) : List (List Char × Nat) :=
  match voc with
  | [] => []
  | w :: ws => (w, start) :: assignIds ws (start + 1)

/-- The `word_index` of the tokenizer returned by the notebook's
`return_fitted_tokenizer(texts)`: words ranked by descending frequency,
ids assigned from 1 (0 is reserved for padding). -/
def fitWordIndex (texts : List (List Char)) : List (List Char × Nat) :=
  assignIds ((sortWordCounts (wordCounts texts)).map (fun p => p.1)) 1

/-- The notebook's `len(tokenizer.word_index) + 1` vocabulary size. -/
def vocabSize (texts : List (List Char)) : Nat :=
  (fitWordIndex texts).length + 1

/-- The body of `Tokenizer.texts_to_sequences` for one tokenized text: keep
the id of every in-vocabulary word, silently skip the rest. -/
def encodeTokens (wi : List (List Char × Nat)) (tokens : List (List Char)) : List Nat :=
  tokens.filterMap (fun w => List.lookup w wi)

/-- `Tokenizer.texts_to_sequences`. -/
def textsToSequences (wi : List (List Char × Nat)) (texts : List (List Char)) :
    List (List Nat) :=
  texts.map (fun t => encodeTokens wi (textToWordSequence t))

/-- `keras.preprocessing.sequence.pad_sequences(..., padding='post')` on one
sequence: default pre-truncation to the last `maxlen` ids, then post-padding
with the value 0. -/
def padOne (maxlen : Nat) (seq : List Nat) : List Nat :=
  let trunc := if maxlen < seq.length then seq.drop (seq.length - maxlen) else seq
  trunc ++ List.replicate (maxlen - trunc.length) 0

/-- `pad_sequences(sequences, maxlen=maxlen, padding='post')`. -/
def padSequences (maxlen : Nat) (seqs : List (List Nat)) : List (List Nat) :=
  seqs.map (padOne maxlen)

/-- The notebook's `sequence_texts(tokenizer, maxlen, texts)`. -/
def sequenceTexts (wi : List (List Char × Nat)) (maxlen : Nat)
    (texts : List (List Char)) : List (List Nat) :=
  padSequences maxlen (textsToSequences wi texts)

/-- `tokenizer.index_word`: the id→word inverse table. -/
def indexWord (wi : List (List Char × Nat)) : List (Nat × List Char) :=
  wi.map (fun p => (p.2, p.1))

/-- The word-recovery loop of `Tokenizer.sequences_to_texts` for one
sequence: ids missing from `index_word` (such as the pad id 0) are skipped. -/
def decodeWords (wi : List (List Char × Nat)) (seq : List Nat) : List (List Char) :=
  seq.filterMap (fun n => List.lookup n (indexWord wi))

/-- `Tokenizer.sequences_to_texts`: recovered words joined with spaces. -/
def sequencesToTexts (wi : List (List Char × Nat)) (seqs : List (List Nat)) :
    List (List Char) :=
  seqs.map (fun s => List.intercalate [' '] (decodeWords wi s))

/-- One row of `tensorflow.keras.utils.to_categorical`: the one-hot vector of
class `i` over `numClasses` classes. -/
def oneHot (numClasses i : Nat) : List Nat :=
  (List.range numClasses).map (fun j => if j = i then 1 else 0)

/-- `to_categorical` over one integer sequence (one row of `Y_train`). -/
def toCategoricalOne (numClasses : Nat) (seq : List Nat) : List (List Nat) :=
  seq.map (oneHot numClasses)

/-- `to_categorical(Y, num_classes)` over the whole 2-D array. -/
def toCategorical (numClasses : Nat) (seqs : List (List Nat)) :
    List (List (List Nat)) :=
  seqs.map (toCategoricalOne numClasses)

/-- `eng, spa = line.split("\t")`: succeeds exactly when the split has two
fields; otherwise the notebook's destructuring raises `ValueError`. -/
def parsePair (line : List Char) : Option (List Char × List Char) :=
  match pySplitP (fun c => c = '\t') line with
  | [e, s] => some (e, s)
  | _ => none

/-- The corpus-loading loop over the given lines: parse each line, fail on
any malformed one (the notebook's uncaught `ValueError`). -/
def loadPairs : List (List Char) → Option (List (List Char × List Char))
  | [] => some []
  | l :: ls =>
    match parsePair l, loadPairs ls with
    | some p, some ps => some (p :: ps)
    | _, _ => none

/-- The notebook's loading loop reads only the first 10000 lines
(`if idx == 10000: break`). -/
def loadCorpus (lines : List (List Char)) : Option (List (List Char × List Char)) :=
  loadPairs (lines.take 10000)

/-- `num_val_samples = int(0.15 * len(text_pairs))`.  For every corpus the
loader can produce (at most 10000 pairs), the binary64 expression
`int(0.15 * n)` equals `3 * n / 20` in integer arithmetic (checked
exhaustively for n up to the cap, where the two in fact agree far beyond
it). -/
def numValSamples (n : Nat) : Nat := 3 * n / 20

/-- The notebook's train/val/test split of the (shuffled) pair list:
`train = text_pairs[:num_train]`, `val` the next slice, `test` the rest. -/
def splitCorpus (pairs : List (List Char × List Char)) :
    List (List Char × List Char) × List (List Char × List Char) ×
      List (List Char × List Char) :=
  let numVal := numValSamples pairs.length
  let numTrain := pairs.length - 2 * numVal
  (pairs.take numTrain, (pairs.drop numTrain).take numVal,
    pairs.drop (numTrain + numVal))

/-- `text_pairs[:, 0]`: the English column. -/
def engTexts (pairs : List (List Char × List Char)) : List (List Char) :=
  pairs.map (fun p => p.1)

/-- `eng_tokenizer = return_fitted_tokenizer(text_pairs[:, 0])`: the English
tokenizer is fitted on the full corpus array `text_pairs`. -/
def engWordIndex (pairs : List (List Char × List Char)) : List (List Char × Nat) :=
  fitWordIndex (engTexts pairs)

/-- `eng_length = calculate_max_length(text_pairs[:, 0])`. -/
def engLength (pairs : List (List Char × List Char)) : Nat :=
  calculateMaxLength (engTexts pairs)

/-- State of `keras.callbacks.ModelCheckpoint('model.h5', monitor='val_loss',
save_best_only=True, mode='min')`: the best-seen validation loss (`none`
models the initial `np.Inf`) and the validation loss of the snapshot
currently on disk (`none` before the first save). -/
structure CkptState where
  best : Option ℚ
  saved : Option ℚ
deriving DecidableEq

/-- One `on_epoch_end` of the checkpoint callback: the snapshot is
overwritten iff the epoch's validation loss strictly improves on the
best-seen value. -/
def ckptStep (st : CkptState) (valLoss : ℚ) : CkptState :=
  match st.best with
  | none => ⟨some valLoss, some valLoss⟩
  | some b => if valLoss < b then ⟨some valLoss, some valLoss⟩ else st

/-- The checkpoint state after each epoch of a training run whose successive
validation losses are `losses`. -/
def ckptRun (st : CkptState) : List ℚ → List CkptState
  | [] => []
  | l :: ls => ckptStep st l :: ckptRun (ckptStep st l) ls

/-- The callback's state when training starts. -/
def ckptInit : CkptState := ⟨none, none⟩

/-- A concrete 7-pair corpus (split: 5 train / 1 val / 1 test) whose test
pair holds the only occurrence of the English token "zzz" and the longest
English sentence. -/
def c1Corpus : List (List Char × List Char) :=
  [("go".toList, "ve".toList), ("run".toList, "corre".toList),
   ("hi".toList, "hola".toList), ("stop".toList, "para".toList),
   ("fire".toList, "fuego".toList), ("wait".toList, "espera".toList),
   ("zzz aa bb cc".toList, "x".toList)]

/-- The pair list the loader produces from a concrete well-formed 7-line
file (used to exercise the split-size properties). -/
def c2Pairs : List (List Char × List Char) :=
  [("a".toList, "b".toList), ("c".toList, "d".toList), ("e".toList, "f".toList),
   ("g".toList, "h".toList), ("i".toList, "j".toList), ("k".toList, "l".toList),
   ("m".toList, "n".toList)]

/-! ### Association-list helper lemmas -/

theorem lookup_mem {α β : Type} [BEq α] [LawfulBEq α] {l : List (α × β)} {a : α} {b : β}
    (h : List.lookup a l = some b) : (a, b) ∈ l := by
  induction l with
  | nil => simp [List.lookup] at h
  | cons p t ih =>
    obtain ⟨k, v⟩ := p
    rw [List.lookup_cons] at h
    by_cases hk : a = k
    · subst hk
      simp only [beq_self_eq_true] at h
      cases h
      exact List.mem_cons_self _ _
    · have : (a == k) = false := beq_eq_false_iff_ne.mpr hk
      rw [this] at h
      exact List.mem_cons_of_mem _ (ih h)

theorem lookup_eq_none_of_not_key {α β : Type} [BEq α] [LawfulBEq α]
    {l : List (α × β)} {a : α} (h : ∀ p ∈ l, p.1 ≠ a) : List.lookup a l = none := by
  induction l with
  | nil => simp [List.lookup]
  | cons p t ih =>
    obtain ⟨k, v⟩ := p
    rw [List.lookup_cons]
    have hk : (a == k) = false :=
      beq_eq_false_iff_ne.mpr fun e => h (k, v) (List.mem_cons_self _ _) e.symm
    rw [hk]
    exact ih fun q hq => h q (List.mem_cons_of_mem _ hq)

theorem fst_eq_of_mem_of_snd_nodup {α β : Type} {l : List (α × β)} {a₁ a₂ : α} {b : β}
    (hnd : (l.map Prod.snd).Nodup) (h₁ : (a₁, b) ∈ l) (h₂ : (a₂, b) ∈ l) : a₁ = a₂ := by
  induction l with
  | nil => cases h₁
  | cons p t ih =>
    rw [List.map_cons, List.nodup_cons] at hnd
    rcases List.mem_cons.mp h₁ with e₁ | m₁ <;> rcases List.mem_cons.mp h₂ with e₂ | m₂
    · rw [← e₂] at e₁; exact congrArg Prod.fst e₁
    · exact absurd (List.mem_map.mpr ⟨(a₂, b), m₂, by rw [← e₁]⟩) hnd.1
    · exact absurd (List.mem_map.mpr ⟨(a₁, b), m₁, by rw [← e₂]⟩) hnd.1
    · exact ih hnd.2 m₁ m₂

theorem lookup_swap_of_snd_nodup {α β : Type} [BEq β] [LawfulBEq β]
    {l : List (α × β)} {a : α} {b : β}
    (hnd : (l.map Prod.snd).Nodup) (h : (a, b) ∈ l) :
    List.lookup b (l.map (fun p => (p.2, p.1))) = some a := by
  induction l with
  | nil => cases h
  | cons p t ih =>
    obtain ⟨x, y⟩ := p
    have hnd' : (t.map Prod.snd).Nodup := (List.nodup_cons.mp (by simpa using hnd)).2
    rw [List.map_cons, List.lookup_cons]
    by_cases hb : b = y
    · subst hb
      have : a = x :=
        fst_eq_of_mem_of_snd_nodup hnd h (List.mem_cons_self _ _)
      subst this
      simp
    · have hbeq : (b == y) = false := beq_eq_false_iff_ne.mpr hb
      rw [hbeq]
      rcases List.mem_cons.mp h with e | m
      · exact absurd (congrArg Prod.snd e) hb
      · exact ih hnd' m

/-! ### Lemmas about the Python split primitive -/

theorem pySplitP_ne_nil (p : Char → Bool) (l : List Char) : pySplitP p l ≠ [] := by
  induction l with
  | nil => simp [pySplitP]
  | cons c cs ih =>
    rw [pySplitP]
    rcases hs : pySplitP p cs with _ | ⟨w, ws⟩
    · exact absurd hs ih
    · by_cases hc : p c <;> simp [hc]

theorem length_pySplitP (p : Char → Bool) (l : List Char) :
    (pySplitP p l).length = l.countP p + 1 := by
  induction l with
  | nil => simp [pySplitP]
  | cons c cs ih =>
    rw [pySplitP]
    rcases hs : pySplitP p cs with _ | ⟨w, ws⟩
    · exact absurd hs (pySplitP_ne_nil p cs)
    · rw [hs] at ih
      by_cases hc : p c <;>
        simp [hc, List.countP_cons] at ih ⊢ <;> omega

/-! ### filterMap helper lemmas -/

theorem length_filterMap_of_isSome {α β : Type} {f : α → Option β} {l : List α}
    (h : ∀ a ∈ l, (f a).isSome) : (l.filterMap f).length = l.length := by
  induction l with
  | nil => rfl
  | cons a t ih =>
    rcases Option.isSome_iff_exists.mp (h a (List.mem_cons_self _ _)) with ⟨b, hb⟩
    rw [List.filterMap_cons, hb]
    simp [ih fun x hx => h x (List.mem_cons_of_mem _ hx)]

theorem length_filterMap_eq_countP {α β : Type} (f : α → Option β) (l : List α) :
    (l.filterMap f).length = l.countP (fun a => (f a).isSome) := by
  induction l with
  | nil => rfl
  | cons a t ih =>
    rw [List.filterMap_cons, List.countP_cons]
    rcases hb : f a with _ | b <;> simp [hb, ih]

/-! ### Structural lemmas about the fitted tokenizer -/

theorem assignIds_map_fst (voc : List (List Char)) (start : Nat) :
    (assignIds voc start).map Prod.fst = voc := by
  induction voc generalizing start with
  | nil => rfl
  | cons w ws ih => rw [assignIds, List.map_cons, ih]

theorem assignIds_length (voc : List (List Char)) (start : Nat) :
    (assignIds voc start).length = voc.length := by
  rw [← assignIds_map_fst voc start, List.length_map, assignIds_map_fst]

theorem snd_ge_of_mem_assignIds {voc : List (List Char)} {start : Nat}
    {w : List Char} {i : Nat} (h : (w, i) ∈ assignIds voc start) : start ≤ i := by
  induction voc generalizing start with
  | nil => cases h
  | cons x xs ih =>
    rw [assignIds] at h
    rcases List.mem_cons.mp h with e | m
    · cases e; exact Nat.le_refl _
    · exact Nat.le_of_succ_le (ih m)

theorem assignIds_snd_nodup (voc : List (List Char)) (start : Nat) :
    ((assignIds voc start).map Prod.snd).Nodup := by
  induction voc generalizing start with
  | nil => exact List.nodup_nil
  | cons x xs ih =>
    rw [assignIds, List.map_cons, List.nodup_cons]
    refine ⟨fun hmem => ?_, ih (start + 1)⟩
    rcases List.mem_map.mp hmem with ⟨⟨w, i⟩, hm, hi⟩
    have := snd_ge_of_mem_assignIds hm
    simp only at hi
    omega

theorem mem_map_fst_iff_any {l : List (List Char × Nat)} {w : List Char} :
    (l.any fun p => p.1 = w) = true ↔ w ∈ l.map Prod.fst := by
  rw [List.any_eq_true]
  constructor
  · rintro ⟨p, hp, he⟩
    exact List.mem_map.mpr ⟨p, hp, by simpa using he.symm⟩
  · intro hm
    rcases List.mem_map.mp hm with ⟨p, hp, he⟩
    exact ⟨p, hp, by simpa using he⟩

theorem bumpCount_map_fst (acc : List (List Char × Nat)) (w : List Char) :
    (bumpCount acc w).map Prod.fst =
      if w ∈ acc.map Prod.fst then acc.map Prod.fst else acc.map Prod.fst ++ [w] := by
  rw [bumpCount]
  by_cases hw : w ∈ acc.map Prod.fst
  · rw [if_pos (mem_map_fst_iff_any.mpr hw), if_pos hw, List.map_map]
    apply List.map_congr_left
    intro p _
    by_cases hp : p.1 = w <;> simp [hp]
  · rw [if_neg (fun hh => hw (mem_map_fst_iff_any.mp hh)), if_neg hw, List.map_append]
    rfl

theorem mem_bumpCount_fst {acc : List (List Char × Nat)} {w v : List Char} :
    v ∈ (bumpCount acc w).map Prod.fst ↔ v ∈ acc.map Prod.fst ∨ v = w := by
  rw [bumpCount_map_fst]
  by_cases hw : w ∈ acc.map Prod.fst
  · rw [if_pos hw]
    constructor
    · exact Or.inl
    · rintro (hv | rfl)
      · exact hv
      · exact hw
  · rw [if_neg hw]
    simp

theorem bumpCount_fst_nodup {acc : List (List Char × Nat)} {w : List Char}
    (h : (acc.map Prod.fst).Nodup) : ((bumpCount acc w).map Prod.fst).Nodup := by
  rw [bumpCount_map_fst]
  by_cases hw : w ∈ acc.map Prod.fst
  · rwa [if_pos hw]
  · rw [if_neg hw]
    exact List.Nodup.append h (List.nodup_singleton w) (by simpa using hw)

theorem foldl_bumpCount_fst_nodup (ts : List (List Char))
    (acc : List (List Char × Nat)) (h : (acc.map Prod.fst).Nodup) :
    ((ts.foldl bumpCount acc).map Prod.fst).Nodup := by
  induction ts generalizing acc with
  | nil => exact h
  | cons t ts ih => exact ih _ (bumpCount_fst_nodup h)

theorem mem_foldl_bumpCount_fst (ts : List (List Char))
    (acc : List (List Char × Nat)) (w : List Char) :
    w ∈ (ts.foldl bumpCount acc).map Prod.fst ↔ w ∈ acc.map Prod.fst ∨ w ∈ ts := by
  induction ts generalizing acc with
  | nil => simp
  | cons t ts ih =>
    rw [List.foldl_cons, ih, mem_bumpCount_fst, List.mem_cons]
    tauto

theorem wordCounts_fst_nodup (texts : List (List Char)) :
    ((wordCounts texts).map Prod.fst).Nodup :=
  foldl_bumpCount_fst_nodup _ _ List.nodup_nil

theorem mem_wordCounts_fst (texts : List (List Char)) (w : List Char) :
    w ∈ (wordCounts texts).map Prod.fst ↔ w ∈ (texts.map textToWordSequence).flatten := by
  rw [wordCounts, mem_foldl_bumpCount_fst]
  simp

theorem insertByCount_perm (x : List Char × Nat) (l : List (List Char × Nat)) :
    (insertByCount x l).Perm (x :: l) := by
  induction l with
  | nil => exact List.Perm.refl _
  | cons y ys ih =>
    rw [insertByCount]
    by_cases h : y.2 ≤ x.2
    · rw [if_pos h]
    · rw [if_neg h]
      exact (ih.cons y).trans (List.Perm.swap x y ys)

theorem sortWordCounts_perm (wc : List (List Char × Nat)) :
    (sortWordCounts wc).Perm wc := by
  induction wc with
  | nil => exact List.Perm.refl _
  | cons x xs ih =>
    rw [sortWordCounts]
    exact (insertByCount_perm x (sortWordCounts xs)).trans (ih.cons x)

theorem fitWordIndex_map_fst (texts : List (List Char)) :
    (fitWordIndex texts).map Prod.fst =
      (sortWordCounts (wordCounts texts)).map Prod.fst :=
  assignIds_map_fst _ _

theorem fitWordIndex_fst_perm (texts : List (List Char)) :
    ((fitWordIndex texts).map Prod.fst).Perm ((wordCounts texts).map Prod.fst) := by
  rw [fitWordIndex_map_fst]
  exact (sortWordCounts_perm _).map _

theorem fitWordIndex_fst_nodup (texts : List (List Char)) :
    ((fitWordIndex texts).map Prod.fst).Nodup :=
  (fitWordIndex_fst_perm texts).nodup_iff.mpr (wordCounts_fst_nodup texts)

theorem mem_fitWordIndex_fst (texts : List (List Char)) (w : List Char) :
    w ∈ (fitWordIndex texts).map Prod.fst ↔
      w ∈ (texts.map textToWordSequence).flatten := by
  rw [(fitWordIndex_fst_perm texts).mem_iff, mem_wordCounts_fst]

theorem fitWordIndex_snd_nodup (texts : List (List Char)) :
    ((fitWordIndex texts).map Prod.snd).Nodup :=
  assignIds_snd_nodup _ _

theorem fitWordIndex_length (texts : List (List Char)) :
    (fitWordIndex texts).length = (wordCounts texts).length := by
  rw [fitWordIndex, assignIds_length, List.length_map]
  exact (sortWordCounts_perm _).length_eq

theorem lookup_fitWordIndex_pos {texts : List (List Char)} {w : List Char} {i : Nat}
    (h : List.lookup w (fitWordIndex texts) = some i) : 1 ≤ i :=
  snd_ge_of_mem_assignIds (lookup_mem h)

theorem lookup_indexWord_fitWordIndex {texts : List (List Char)} {w : List Char}
    {i : Nat} (h : List.lookup w (fitWordIndex texts) = some i) :
    List.lookup i (indexWord (fitWordIndex texts)) = some w :=
  lookup_swap_of_snd_nodup (fitWordIndex_snd_nodup texts) (lookup_mem h)

theorem lookup_indexWord_zero (texts : List (List Char)) :
    List.lookup 0 (indexWord (fitWordIndex texts)) = none := by
  apply lookup_eq_none_of_not_key
  intro p hp
  rcases List.mem_map.mp hp with ⟨⟨w, i⟩, hm, he⟩
  have h1 : 1 ≤ i := snd_ge_of_mem_assignIds hm
  subst he
  simp only
  omega

/-! ### Padding and one-hot lemmas -/

theorem padOne_length (maxlen : Nat) (seq : List Nat) :
    (padOne maxlen seq).length = maxlen := by
  rw [padOne]
  by_cases h : maxlen < seq.length <;>
    simp [h, List.length_drop] <;> omega

theorem padOne_of_le {maxlen : Nat} {seq : List Nat} (h : seq.length ≤ maxlen) :
    padOne maxlen seq = seq ++ List.replicate (maxlen - seq.length) 0 := by
  rw [padOne, if_neg (by omega)]

theorem padOne_of_gt {maxlen : Nat} {seq : List Nat} (h : maxlen < seq.length) :
    padOne maxlen seq = seq.drop (seq.length - maxlen) := by
  rw [padOne, if_pos h]
  have : maxlen - (seq.drop (seq.length - maxlen)).length = 0 := by
    rw [List.length_drop]; omega
  rw [this, List.replicate_zero, List.append_nil]

theorem padOne_getElem_pad {maxlen k : Nat} {seq : List Nat}
    (h1 : seq.length ≤ k) (h2 : k < maxlen) : (padOne maxlen seq)[k]? = some 0 := by
  rw [padOne_of_le (Nat.le_trans h1 (Nat.le_of_lt h2)),
    List.getElem?_append_right h1, List.getElem?_replicate, if_pos (by omega)]

theorem oneHot_length (n i : Nat) : (oneHot n i).length = n := by
  simp [oneHot]

theorem oneHot_self {n i : Nat} (h : i < n) : (oneHot n i)[i]? = some 1 := by
  rw [oneHot, List.getElem?_map, List.getElem?_range h]
  simp

theorem oneHot_other {n i j : Nat} (hj : j < n) (hne : j ≠ i) :
    (oneHot n i)[j]? = some 0 := by
  rw [oneHot, List.getElem?_map, List.getElem?_range hj]
  simp [hne]

theorem oneHot_sum {n i : Nat} (h : i < n) : (oneHot n i).sum = 1 := by
  induction n with
  | zero => omega
  | succ m ih =>
    rw [oneHot, List.range_succ, List.map_append, List.sum_append]
    by_cases hi : i < m
    · have hm : ((List.range m).map fun j => if j = i then 1 else 0).sum = 1 := by
        have := ih hi
        rwa [oneHot] at this
      have hne : m ≠ i := by omega
      simp [hm, hne]
    · have heq : i = m := by omega
      subst heq
      have hz : ((List.range i).map fun j => if j = i then 1 else 0).sum = 0 := by
        apply List.sum_eq_zero
        intro x hx
        rcases List.mem_map.mp hx with ⟨j, hj, he⟩
        have : j ≠ i := Nat.ne_of_lt (List.mem_range.mp hj)
        rw [← he, if_neg this]
      simp [hz]

theorem toCategoricalOne_getElem (n : Nat) (seq : List Nat) (k : Nat) :
    (toCategoricalOne n seq)[k]? = (seq[k]?).map (oneHot n) := by
  rw [toCategoricalOne, List.getElem?_map]

/-! ### Corpus loading and splitting lemmas -/

theorem splitCorpus_join (pairs : List (List Char × List Char)) :
    (splitCorpus pairs).1 ++ (splitCorpus pairs).2.1 ++ (splitCorpus pairs).2.2 = pairs := by
  simp only [splitCorpus]
  rw [List.append_assoc]
  have hdd : (pairs.drop (pairs.length - 2 * numValSamples pairs.length)).drop
      (numValSamples pairs.length) =
      pairs.drop (pairs.length - 2 * numValSamples pairs.length + numValSamples pairs.length) := by
    rw [List.drop_drop]
  rw [← hdd, List.take_append_drop, List.take_append_drop]

theorem numValSamples_two_le (n : Nat) : 2 * numValSamples n ≤ n := by
  rw [numValSamples]; omega

theorem splitCorpus_train_length (pairs : List (List Char × List Char)) :
    (splitCorpus pairs).1.length = pairs.length - 2 * numValSamples pairs.length := by
  have := numValSamples_two_le pairs.length
  simp only [splitCorpus, List.length_take]
  omega

theorem splitCorpus_val_length (pairs : List (List Char × List Char)) :
    (splitCorpus pairs).2.1.length = numValSamples pairs.length := by
  have := numValSamples_two_le pairs.length
  simp only [splitCorpus, List.length_take, List.length_drop]
  omega

theorem splitCorpus_test_length (pairs : List (List Char × List Char)) :
    (splitCorpus pairs).2.2.length = numValSamples pairs.length := by
  have := numValSamples_two_le pairs.length
  simp only [splitCorpus, List.length_drop]
  omega

theorem engTexts_append (a b : List (List Char × List Char)) :
    engTexts (a ++ b) = engTexts a ++ engTexts b := by
  simp [engTexts]

theorem loadPairs_eq_none_of_mem {lines : List (List Char)} {l : List Char}
    (hm : l ∈ lines) (hp : parsePair l = none) : loadPairs lines = none := by
  induction lines with
  | nil => cases hm
  | cons x xs ih =>
    rcases List.mem_cons.mp hm with rfl | hmem
    · rw [loadPairs, hp]
    · rw [loadPairs, ih hmem]
      rcases parsePair x with _ | p <;> rfl

theorem loadCorpus_eq_take (lines : List (List Char)) :
    loadCorpus lines = loadCorpus (lines.take 10000) := by
  rw [loadCorpus, loadCorpus, List.take_take, Nat.min_self]

theorem loadPairs_length {lines : List (List Char)}
    {pairs : List (List Char × List Char)} (h : loadPairs lines = some pairs) :
    pairs.length = lines.length := by
  induction lines generalizing pairs with
  | nil =>
    rw [loadPairs] at h
    cases h
    rfl
  | cons x xs ih =>
    rw [loadPairs] at h
    rcases hx : parsePair x with _ | p <;> rw [hx] at h
    · cases h
    · rcases hxs : loadPairs xs with _ | ps <;> rw [hxs] at h
      · cases h
      · cases h
        simp [ih hxs]

theorem parsePair_eq_none_iff (line : List Char) :
    parsePair line = none ↔ line.countP (fun c => c = '\t') ≠ 1 := by
  have hlen := length_pySplitP (fun c => c = '\t') line
  rw [parsePair]
  rcases hs : pySplitP (fun c => c = '\t') line with _ | ⟨w, ws⟩
  · exact absurd hs (pySplitP_ne_nil _ _)
  · rw [hs] at hlen
    rcases ws with _ | ⟨w2, ws2⟩
    · simp only [List.length_cons, List.length_nil] at hlen
      simp
      omega
    · rcases ws2 with _ | ⟨w3, ws3⟩
      · simp only [List.length_cons, List.length_nil] at hlen
        simp
        omega
      · simp only [List.length_cons] at hlen
        simp
        omega

/-! ### Decode / encode lemmas -/

theorem decodeWords_append (wi : List (List Char × Nat)) (s₁ s₂ : List Nat) :
    decodeWords wi (s₁ ++ s₂) = decodeWords wi s₁ ++ decodeWords wi s₂ := by
  simp [decodeWords, List.filterMap_append]

theorem decodeWords_replicate_zero (texts : List (List Char)) (n : Nat) :
    decodeWords (fitWordIndex texts) (List.replicate n 0) = [] := by
  induction n with
  | zero => rfl
  | succ m ih =>
    rw [List.replicate_succ, decodeWords, List.filterMap_cons,
      lookup_indexWord_zero]
    exact ih

theorem decodeWords_encodeTokens {texts : List (List Char)}
    {tokens : List (List Char)}
    (h : ∀ w ∈ tokens, (List.lookup w (fitWordIndex texts)).isSome) :
    decodeWords (fitWordIndex texts) (encodeTokens (fitWordIndex texts) tokens) = tokens := by
  induction tokens with
  | nil => rfl
  | cons w ts ih =>
    rcases Option.isSome_iff_exists.mp (h w (List.mem_cons_self _ _)) with ⟨i, hi⟩
    have hrest := ih fun x hx => h x (List.mem_cons_of_mem _ hx)
    simp only [encodeTokens, decodeWords] at hrest ⊢
    simp only [List.filterMap_cons, hi, lookup_indexWord_fitWordIndex hi]
    rw [hrest]

/-! ### Checkpoint lemmas -/

theorem ckptStep_inv {st : CkptState} {l : ℚ} (h : st.best = st.saved) :
    (ckptStep st l).best = (ckptStep st l).saved := by
  rcases st with ⟨b, s⟩
  rcases b with _ | b
  · rfl
  · rw [ckptStep]
    by_cases hl : l < b <;> simp [hl, h]

theorem ckptStep_saved_le {st : CkptState} {l : ℚ} (h : st.best = st.saved) :
    ∀ a ∈ st.saved, ∃ b ∈ (ckptStep st l).saved, b ≤ a := by
  intro a ha
  rcases st with ⟨b, s⟩
  rcases b with _ | b
  · simp only at h
    rw [← h] at ha
    cases ha
  · simp only at h
    rw [ckptStep]
    by_cases hl : l < b
    · refine ⟨l, by simp [hl], ?_⟩
      have hb : b = a := by
        rw [← h] at ha
        simpa using ha
      rw [← hb]
      exact le_of_lt hl
    · exact ⟨a, by simpa [hl] using ha, le_refl a⟩

theorem ckptRun_chain' (ls : List ℚ) (st : CkptState) (h : st.best = st.saved) :
    List.Chain' (fun s t => ∀ a ∈ s.saved, ∃ b ∈ t.saved, b ≤ a) (ckptRun st ls) := by
  induction ls generalizing st with
  | nil => exact List.chain'_nil
  | cons l ls ih =>
    rw [ckptRun]
    refine List.Chain'.cons' (ih _ (ckptStep_inv h)) ?_
    intro y hy
    rcases ls with _ | ⟨l₂, ls₂⟩
    · simp [ckptRun] at hy
    · have he : ckptStep (ckptStep st l) l₂ = y := by
        rw [ckptRun] at hy
        simpa using hy
      rw [← he]
      exact ckptStep_saved_le (ckptStep_inv h)

/-! ### Claim theorems -/

/-- Claim C1 (counterexample): in the concrete corpus `c1Corpus` the token
"zzz" enters the English vocabulary and the max length is 4, although "zzz"
occurs in no training sentence and every training sentence has one token:
the Vocabulary Builder does NOT read the training partition only. -/
theorem c1_vocab_from_train_counterexample :
    "zzz".toList ∈ (engWordIndex c1Corpus).map Prod.fst ∧
    (∀ t ∈ engTexts (splitCorpus c1Corpus).1, "zzz".toList ∉ textToWordSequence t) ∧
    engLength c1Corpus = 4 ∧
    calculateMaxLength (engTexts (splitCorpus c1Corpus).1) = 1 := by
  decide

/-- Claim C1 (amended): for each language the token-to-id mapping and the
recorded max-token-count are computed from the sentences of all three
partitions together (the full corpus), not from the training partition
alone: a token is in the vocabulary iff it occurs in the concatenation
train ++ val ++ test, and the max length is taken over that concatenation. -/
theorem c1_vocab_built_from_full_corpus (pairs : List (List Char × List Char)) :
    (∀ w, w ∈ (engWordIndex pairs).map Prod.fst ↔
      w ∈ ((engTexts ((splitCorpus pairs).1 ++ (splitCorpus pairs).2.1 ++
        (splitCorpus pairs).2.2)).map textToWordSequence).flatten) ∧
    engLength pairs = calculateMaxLength
      (engTexts ((splitCorpus pairs).1 ++ (splitCorpus pairs).2.1 ++
        (splitCorpus pairs).2.2)) := by
  rw [splitCorpus_join]
  exact ⟨fun w => mem_fitWordIndex_fst _ w, rfl⟩

/-- Claim C2: for every loaded corpus of n pairs, the three partitions are
disjoint slices whose concatenation is the whole corpus, with
|train| + |val| + |test| = n and |val| = |test| = ⌊0.15·n⌋ = 3n/20. -/
theorem c2_partition_sizes (lines : List (List Char))
    (pairs : List (List Char × List Char)) (_h : loadCorpus lines = some pairs) :
    (splitCorpus pairs).1 ++ (splitCorpus pairs).2.1 ++ (splitCorpus pairs).2.2 = pairs ∧
    (splitCorpus pairs).1.length + (splitCorpus pairs).2.1.length +
      (splitCorpus pairs).2.2.length = pairs.length ∧
    (splitCorpus pairs).2.1.length = 3 * pairs.length / 20 ∧
    (splitCorpus pairs).2.2.length = 3 * pairs.length / 20 := by
  refine ⟨splitCorpus_join pairs, ?_, ?_, ?_⟩
  · rw [splitCorpus_train_length, splitCorpus_val_length, splitCorpus_test_length]
    have := numValSamples_two_le pairs.length
    omega
  · rw [splitCorpus_val_length, numValSamples]
  · rw [splitCorpus_test_length, numValSamples]

/-- Witness for C2 at a concrete 7-line file. -/
theorem c2_partition_sizes_witness :
    loadCorpus ["a\tb".toList, "c\td".toList, "e\tf".toList, "g\th".toList,
      "i\tj".toList, "k\tl".toList, "m\tn".toList] = some c2Pairs ∧
    ((splitCorpus c2Pairs).1 ++ (splitCorpus c2Pairs).2.1 ++
        (splitCorpus c2Pairs).2.2 = c2Pairs ∧
      (splitCorpus c2Pairs).1.length + (splitCorpus c2Pairs).2.1.length +
        (splitCorpus c2Pairs).2.2.length = c2Pairs.length ∧
      (splitCorpus c2Pairs).2.1.length = 3 * c2Pairs.length / 20 ∧
      (splitCorpus c2Pairs).2.2.length = 3 * c2Pairs.length / 20) :=
  ⟨by decide,
    c2_partition_sizes ["a\tb".toList, "c\td".toList, "e\tf".toList, "g\th".toList,
      "i\tj".toList, "k\tl".toList, "m\tn".toList] c2Pairs (by decide)⟩

/-- Claim C3: for every sentence, the encoded sequence has length exactly
`maxlen`: a sentence with at most `maxlen` tokens is right-padded with the
id 0, and a sentence with more tokens is truncated to `maxlen` ids. -/
theorem c3_encoded_length (wi : List (List Char × Nat)) (maxlen : Nat) (s : List Char)
    (h : ∀ w ∈ textToWordSequence s, (List.lookup w wi).isSome) :
    ∃ out, sequenceTexts wi maxlen [s] = [out] ∧ out.length = maxlen ∧
      ((textToWordSequence s).length ≤ maxlen →
        out = encodeTokens wi (textToWordSequence s) ++
          List.replicate (maxlen - (textToWordSequence s).length) 0) ∧
      (maxlen < (textToWordSequence s).length →
        out = (encodeTokens wi (textToWordSequence s)).drop
          ((textToWordSequence s).length - maxlen)) := by
  have hlen : (encodeTokens wi (textToWordSequence s)).length
      = (textToWordSequence s).length := length_filterMap_of_isSome h
  refine ⟨padOne maxlen (encodeTokens wi (textToWordSequence s)), rfl,
    padOne_length _ _, ?_, ?_⟩
  · intro hle
    rw [padOne_of_le (by omega), hlen]
  · intro hgt
    rw [padOne_of_gt (by omega), hlen]

/-- Witness for C3: the two-token sentence "a a" padded to length 4. -/
theorem c3_encoded_length_witness :
    (∀ w ∈ textToWordSequence "a a".toList,
      (List.lookup w [("a".toList, 1)]).isSome) ∧
    (∃ out, sequenceTexts [("a".toList, 1)] 4 ["a a".toList] = [out] ∧
      out.length = 4 ∧
      ((textToWordSequence "a a".toList).length ≤ 4 →
        out = encodeTokens [("a".toList, 1)] (textToWordSequence "a a".toList) ++
          List.replicate (4 - (textToWordSequence "a a".toList).length) 0) ∧
      (4 < (textToWordSequence "a a".toList).length →
        out = (encodeTokens [("a".toList, 1)] (textToWordSequence "a a".toList)).drop
          ((textToWordSequence "a a".toList).length - 4))) :=
  ⟨by decide, c3_encoded_length [("a".toList, 1)] 4 "a a".toList (by decide)⟩

/-- Claim C4: when every id of the sequence is below the vocabulary size,
the label encoder yields, per timestep, a vector of length the vocabulary
size with a 1 exactly at the token's id, 0 everywhere else, summing to 1. -/
theorem c4_one_hot (seq : List Nat) (n : Nat) (h : ∀ i ∈ seq, i < n)
    (k i : Nat) (hk : seq[k]? = some i) :
    (toCategoricalOne n seq)[k]? = some (oneHot n i) ∧
    (oneHot n i).length = n ∧
    (oneHot n i)[i]? = some 1 ∧
    (∀ j, j < n → j ≠ i → (oneHot n i)[j]? = some 0) ∧
    (oneHot n i).sum = 1 := by
  have hin : i < n := h i (List.mem_iff_getElem?.mpr ⟨k, hk⟩)
  refine ⟨?_, oneHot_length n i, oneHot_self hin,
    fun j hj hne => oneHot_other hj hne, oneHot_sum hin⟩
  rw [toCategoricalOne_getElem, hk]
  rfl

/-- Witness for C4 at the sequence [2, 0, 1] over 3 classes. -/
theorem c4_one_hot_witness :
    (∀ i ∈ [2, 0, 1], i < 3) ∧ [2, 0, 1][0]? = some 2 ∧
    ((toCategoricalOne 3 [2, 0, 1])[0]? = some (oneHot 3 2) ∧
      (oneHot 3 2).length = 3 ∧
      (oneHot 3 2)[2]? = some 1 ∧
      (∀ j, j < 3 → j ≠ 2 → (oneHot 3 2)[j]? = some 0) ∧
      (oneHot 3 2).sum = 1) :=
  ⟨by decide, by decide, c4_one_hot [2, 0, 1] 3 (by decide) 0 2 (by decide)⟩

/-- Claim C5: the Corpus Loader reads at most the first 10000 lines, and if
any read line does not contain exactly one tab separator the load fails with
no pair list (hence no partitions) produced. -/
theorem c5_loader (lines : List (List Char)) :
    loadCorpus lines = loadCorpus (lines.take 10000) ∧
    ∀ l ∈ lines.take 10000, (l.countP fun c => c = '\t') ≠ 1 →
      loadCorpus lines = none := by
  refine ⟨loadCorpus_eq_take lines, fun l hl hc => ?_⟩
  rw [loadCorpus]
  exact loadPairs_eq_none_of_mem hl ((parsePair_eq_none_iff l).mpr hc)

/-- Witness for C5: a file whose second line has no tab fails to load. -/
theorem c5_loader_witness :
    "oops".toList ∈ (["a\tb".toList, "oops".toList].take 10000) ∧
    ("oops".toList.countP fun c => c = '\t') ≠ 1 ∧
    loadCorpus ["a\tb".toList, "oops".toList] = none :=
  ⟨by decide, by decide,
    (c5_loader ["a\tb".toList, "oops".toList]).2 "oops".toList (by decide) (by decide)⟩

/-- Claim C6: distinct tokens receive distinct ids, every assigned id is at
least 1 (0 is never given to a real token), and the reported vocabulary
size is the number of distinct tokens plus 1. -/
theorem c6_vocabulary_ids (texts : List (List Char)) :
    (∀ w₁ w₂ i, List.lookup w₁ (fitWordIndex texts) = some i →
      List.lookup w₂ (fitWordIndex texts) = some i → w₁ = w₂) ∧
    (∀ w i, List.lookup w (fitWordIndex texts) = some i → 1 ≤ i) ∧
    vocabSize texts = ((texts.map textToWordSequence).flatten).toFinset.card + 1 := by
  refine ⟨fun w₁ w₂ i h₁ h₂ =>
      fst_eq_of_mem_of_snd_nodup (fitWordIndex_snd_nodup texts)
        (lookup_mem h₁) (lookup_mem h₂),
    fun w i h => lookup_fitWordIndex_pos h, ?_⟩
  have hnd := wordCounts_fst_nodup texts
  have hset : ((wordCounts texts).map Prod.fst).toFinset =
      ((texts.map textToWordSequence).flatten).toFinset := by
    apply Finset.ext
    intro x
    rw [List.mem_toFinset, List.mem_toFinset, mem_wordCounts_fst]
  have h1 : ((wordCounts texts).map Prod.fst).length = (wordCounts texts).length :=
    List.length_map _ _
  have h2 := List.toFinset_card_of_nodup hnd
  rw [vocabSize, fitWordIndex_length, ← hset, h2, h1]

/-- Witness for C6: in the corpus ["b a a"], the frequent token "a" has id
1, which is at least 1. -/
theorem c6_vocabulary_ids_witness :
    List.lookup "a".toList (fitWordIndex ["b a a".toList]) = some 1 ∧ 1 ≤ 1 :=
  ⟨by decide, (c6_vocabulary_ids ["b a a".toList]).2.1 "a".toList 1 (by decide)⟩

/-- Claim C7: for a sentence all of whose tokens are in the vocabulary and
whose token count is at most the max length, encoding with `sequenceTexts`
and decoding with `sequencesToTexts` over the same vocabulary recovers
exactly the normalized token sequence (joined with single spaces). -/
theorem c7_round_trip (texts : List (List Char)) (maxlen : Nat) (s : List Char)
    (h1 : ∀ w ∈ textToWordSequence s, (List.lookup w (fitWordIndex texts)).isSome)
    (h2 : (textToWordSequence s).length ≤ maxlen) :
    sequencesToTexts (fitWordIndex texts)
        (sequenceTexts (fitWordIndex texts) maxlen [s]) =
      [List.intercalate [' '] (textToWordSequence s)] := by
  have hlen : (encodeTokens (fitWordIndex texts) (textToWordSequence s)).length =
      (textToWordSequence s).length := length_filterMap_of_isSome h1
  have hpad : sequenceTexts (fitWordIndex texts) maxlen [s] =
      [encodeTokens (fitWordIndex texts) (textToWordSequence s) ++
        List.replicate (maxlen - (textToWordSequence s).length) 0] := by
    show [padOne maxlen (encodeTokens (fitWordIndex texts) (textToWordSequence s))] = _
    rw [padOne_of_le (by omega), hlen]
  rw [hpad, sequencesToTexts, List.map_cons, List.map_nil, decodeWords_append,
    decodeWords_replicate_zero, List.append_nil, decodeWords_encodeTokens h1]

/-- Witness for C7: "Ve." normalizes to the token "ve" and round-trips
through a vocabulary fitted on ["ve come"]. -/
theorem c7_round_trip_witness :
    (∀ w ∈ textToWordSequence "Ve.".toList,
      (List.lookup w (fitWordIndex ["ve come".toList])).isSome) ∧
    (textToWordSequence "Ve.".toList).length ≤ 2 ∧
    sequencesToTexts (fitWordIndex ["ve come".toList])
        (sequenceTexts (fitWordIndex ["ve come".toList]) 2 ["Ve.".toList]) =
      [List.intercalate [' '] (textToWordSequence "Ve.".toList)] :=
  ⟨by decide, by decide,
    c7_round_trip ["ve come".toList] 2 "Ve.".toList (by decide) (by decide)⟩

/-- Claim C8: the checkpoint is overwritten only when the epoch's validation
loss strictly improves on the best seen so far, so along any training run
the persisted snapshot's validation loss is non-increasing. -/
theorem c8_checkpoint_monotone (losses : List ℚ) :
    List.Chain' (fun s t => ∀ a ∈ s.saved, ∃ b ∈ t.saved, b ≤ a)
      (ckptRun ckptInit losses) ∧
    (∀ (st : CkptState) (l : ℚ), ckptStep st l ≠ st → ∀ b ∈ st.best, l < b) := by
  refine ⟨ckptRun_chain' losses ckptInit rfl, fun st l hne b hb => ?_⟩
  rcases st with ⟨bo, so⟩
  rcases bo with _ | bv
  · exact absurd hb (by simp)
  · have hbv : bv = b := by simpa using hb
    subst hbv
    by_cases hl : l < bv
    · exact hl
    · exact absurd (by rw [ckptStep]; simp [hl]) hne

/-- Witness for C8: with best-seen loss 2, the step at loss 1 overwrites the
checkpoint, and indeed 1 < 2. -/
theorem c8_checkpoint_monotone_witness :
    ckptStep ⟨some 2, some 2⟩ 1 ≠ (⟨some 2, some 2⟩ : CkptState) ∧ (1 : ℚ) < 2 :=
  ⟨by decide,
    (c8_checkpoint_monotone []).2 ⟨some 2, some 2⟩ 1 (by decide) 2
      (Option.mem_def.mpr rfl)⟩

/-- Claim C9: a token absent from the vocabulary is silently dropped by the
sequence encoder — the encoding of a sentence containing it equals the
encoding with the token removed (later tokens shift left), no placeholder
id is emitted, and the output length counts exactly the in-vocabulary
tokens. -/
theorem c9_oov_dropped (wi : List (List Char × Nat)) (pre post : List (List Char))
    (w : List Char) (h : List.lookup w wi = none) :
    encodeTokens wi (pre ++ w :: post) = encodeTokens wi (pre ++ post) ∧
    (encodeTokens wi (pre ++ w :: post)).length =
      ((pre ++ post).countP fun t => (List.lookup t wi).isSome) := by
  have h1 : encodeTokens wi (pre ++ w :: post) = encodeTokens wi (pre ++ post) := by
    simp only [encodeTokens, List.filterMap_append, List.filterMap_cons, h]
  exact ⟨h1, by rw [h1, encodeTokens, length_filterMap_eq_countP]⟩

/-- Witness for C9: "x" is out of vocabulary between two occurrences of
"a". -/
theorem c9_oov_dropped_witness :
    List.lookup "x".toList [("a".toList, 1)] = none ∧
    (encodeTokens [("a".toList, 1)] ["a".toList, "x".toList, "a".toList] =
        encodeTokens [("a".toList, 1)] ["a".toList, "a".toList] ∧
      (encodeTokens [("a".toList, 1)] ["a".toList, "x".toList, "a".toList]).length =
        (["a".toList, "a".toList].countP fun t =>
          (List.lookup t [("a".toList, 1)]).isSome)) :=
  ⟨by decide,
    c9_oov_dropped [("a".toList, 1)] ["a".toList] ["a".toList] "x".toList (by decide)⟩

/-- Claim C10: every padded position of a target sequence carries the id 0,
and the label encoder turns it into an ordinary one-hot row whose single 1
sits at index 0 and which sums to 1, exactly like a real token's row. -/
theorem c10_pad_label (n maxlen k : Nat) (ids : List Nat) (hn : 0 < n)
    (h1 : ids.length ≤ k) (h2 : k < maxlen) :
    (padOne maxlen ids)[k]? = some 0 ∧
    (toCategoricalOne n (padOne maxlen ids))[k]? = some (oneHot n 0) ∧
    (oneHot n 0)[0]? = some 1 ∧
    (∀ j, 0 < j → j < n → (oneHot n 0)[j]? = some 0) ∧
    (oneHot n 0).sum = 1 := by
  have hp := padOne_getElem_pad h1 h2
  refine ⟨hp, ?_, oneHot_self hn,
    fun j hj0 hjn => oneHot_other hjn (by omega), oneHot_sum hn⟩
  rw [toCategoricalOne_getElem, hp]
  rfl

/-- Witness for C10: position 2 of the two-id sequence [2, 1] padded to
length 4 over 3 classes. -/
theorem c10_pad_label_witness :
    (0 : Nat) < 3 ∧ [2, 1].length ≤ 2 ∧ 2 < 4 ∧
    ((padOne 4 [2, 1])[2]? = some 0 ∧
      (toCategoricalOne 3 (padOne 4 [2, 1]))[2]? = some (oneHot 3 0) ∧
      (oneHot 3 0)[0]? = some 1 ∧
      (∀ j, 0 < j → j < 3 → (oneHot 3 0)[j]? = some 0) ∧
      (oneHot 3 0).sum = 1) :=
  ⟨by decide, by decide, by decide,
    c10_pad_label 3 4 2 [2, 1] (by decide) (by decide) (by decide)⟩

end RSE
